import Mathlib

/-!
Verification of the Othello move-calculator engine.

Shallow embedding of the engine sources:
  - board utilities and game logic (`board.ts`): starting position, algebraic
    conversion, legal-move generation, move application, serialization;
  - evaluation (`evaluation.ts`): piece-square, mobility, frontier, stability,
    disc-difference scores combined with fixed weights;
  - Zobrist hashing (`zobrist.ts`): from-scratch and incremental hashing;
  - search (`search.ts`): minimax with alpha-beta pruning, transposition table,
    move ordering, iterative-deepening driver.

Conventions of the embedding:
  - JS `number` cell values and coordinates are `Int` (cells are 0, 1, -1);
  - a board is a list of rows of cells, as in the source (`Cell[][]`);
  - JS strings are lists of characters;
  - the 64-bit BigInt hash values are `Nat` (XOR never overflows, so no
    truncation is involved anywhere in the hashing code);
  - the random Zobrist piece table is a parameter `Z`: the source generates it
    with `Math.random` once at module load;
  - bounded `while` loops over board rays are written as fuel recursion with
    fuel 16: every ray from an in-board square leaves the 8x8 board after at
    most 8 steps, so the loop guard always exits the loop before fuel runs out;
  - exact rational arithmetic (`Rat`) stands for JS float arithmetic in the
    evaluator; all quantities involved are tiny integer fractions.
-/

namespace Othello

/-- Cell state as in `types.ts`: 0 = empty, 1 = black, -1 = white. -/
abbrev Cell := Int

/-- The 8x8 board, row-major, as in `types.ts` (`Cell[][]`). -/
abbrev Board := List (List Cell)

/-- Bounds test `r >= 0 && r < 8 && c >= 0 && c < 8` used throughout the source. -/
def inB (r c : Int) : Bool := 0 ≤ r && r < 8 && 0 ≤ c && c < 8

/-- Read `board[r][c]`. Every read in the source happens under an `inB` guard
(either the explicit ray-walk guard or loop ranges 0..7), so the out-of-bounds
default 0 is never observed. -/
def cellAt (b : Board) (r c : Int) : Cell :=
  if inB r c then (b.getD r.toNat []).getD c.toNat 0 else 0

/-- Write `board[r][c] = v` (on a copied board). Guarded like `cellAt`; every
write in the source is at in-board coordinates. -/
def setCellI (b : Board) (r c : Int) (v : Cell) : Board :=
  if inB r c then b.set r.toNat ((b.getD r.toNat []).set c.toNat v) else b

/-- The board has 8 rows of 8 columns (the shape every `Board` value built by
the source has). -/
def WFShape (b : Board) : Prop := b.length = 8 ∧ ∀ row ∈ b, row.length = 8

instance : DecidablePred WFShape := fun b => by
  unfold WFShape; infer_instance

/-- All cells carry a legal `Cell` value (0, 1 or -1). -/
def ValidCells (b : Board) : Prop := ∀ row ∈ b, ∀ v ∈ row, v = 0 ∨ v = 1 ∨ v = -1

instance : DecidablePred ValidCells := fun b => by
  unfold ValidCells; infer_instance

/-- The 8 ray directions, in the order they appear (identically) in
`generateLegalMoves`, `applyMove`, the evaluator and the search. -/
def DIRECTIONS : List (Int × Int) :=
  [(-1, -1), (-1, 0), (-1, 1), (0, -1), (0, 1), (1, -1), (1, 0), (1, 1)]

/-- The 64 squares in the row-major order of the nested
`for (r) for (c)` loops of the source. -/
def rowMajorPairs : List (Int × Int) :=
  (List.range 8).flatMap fun r => (List.range 8).map fun c => ((r : Int), (c : Int))

/-- The board built by `createStartingBoard` in `board.ts`: zeros everywhere
except `board[3][3] = 1`, `board[3][4] = -1`, `board[4][3] = -1`,
`board[4][4] = 1` (the source's comment reads d4=black, e4=white, d5=white,
e5=black). -/
def createStartingBoard : Board :=
  [[0, 0, 0, 0, 0, 0, 0, 0],
   [0, 0, 0, 0, 0, 0, 0, 0],
   [0, 0, 0, 0, 0, 0, 0, 0],
   [0, 0, 0, 1, -1, 0, 0, 0],
   [0, 0, 0, -1, 1, 0, 0, 0],
   [0, 0, 0, 0, 0, 0, 0, 0],
   [0, 0, 0, 0, 0, 0, 0, 0],
   [0, 0, 0, 0, 0, 0, 0, 0]]

/-- The string literal given by the token pass. -/
def passTok : List Char := ['p', 'a', 's', 's']

/-- Converts move coordinates to algebraic notation (`moveToAlgebraic` in
`board.ts`). `null` (the pass move) is `none`. The row digit mirrors
`(move.r + 1).toString()`: every move the engine produces has `0 ≤ r < 8`,
for which `toString` yields the single digit below. -/
def moveToAlgebraic (m : Option (Int × Int)) : List Char :=
  match m with
  | none => passTok
  | some (r, c) => [Char.ofNat (97 + c).toNat, Char.ofNat (48 + (r + 1)).toNat]

/-- JS `parseInt` applied to a single-character string, as in
`parseInt(algebraic[1])`: a decimal digit parses to its value, anything else
yields `NaN`, modelled as `none`. -/
def jsParseIntChar (ch : Char) : Option Int :=
  if ch.isDigit then some ((ch.toNat : Int) - 48) else none

/-- JS `x < y` where `x` may be `NaN`: any comparison with `NaN` is false. -/
def jsLtNum (x : Option Int) (y : Int) : Bool :=
  match x with
  | none => false
  | some v => v < y

/-- JS `x > y` where `x` may be `NaN`. -/
def jsGtNum (x : Option Int) (y : Int) : Bool :=
  match x with
  | none => false
  | some v => y < v

/-- Converts algebraic notation to move coordinates (`algebraicToMove` in
`board.ts`).  The result is `none` for `null`, otherwise the pair
`{ r, c }`; the row component is `Option Int` because
`parseInt(algebraic[1]) - 1` is `NaN` when the second character is not a
digit, and `NaN` flows through the range checks (every comparison with `NaN`
is false) into the returned object. -/
def algebraicToMove (s : List Char) : Option (Option Int × Int) :=
  if s = passTok then none
  else if s.length ≠ 2 then none
  else
    let col : Int := (s.getD 0 ' ').toNat - 97
    let row : Option Int := (jsParseIntChar (s.getD 1 ' ')).map (· - 1)
    if col < 0 || 7 < col || jsLtNum row 0 || jsGtNum row 7 then none
    else some (row, col)

/-- The while-loop of `hasFlipsInDirection` in `board.ts`: walk from
`(nr, nc)` while the square holds the opponent, remembering whether any
opponent disc was seen; on exit test that the loop stopped on a disc of
`color` inside the board. Fuel recursion (see the file header). -/
def hasFlipsAux (b : Board) (color : Cell) (dr dc : Int) :
    Nat → Int → Int → Bool → Bool
  | 0, nr, nc, hasOpp => hasOpp && inB nr nc && (cellAt b nr nc == color)
  | fuel + 1, nr, nc, hasOpp =>
    if inB nr nc && (cellAt b nr nc == -color) then
      hasFlipsAux b color dr dc fuel (nr + dr) (nc + dc) true
    else
      hasOpp && inB nr nc && (cellAt b nr nc == color)

/-- Checks if placing a piece at `(r, c)` would flip pieces in direction
`(dr, dc)` (`hasFlipsInDirection` in `board.ts`). -/
def hasFlipsInDirection (b : Board) (r c dr dc : Int) (color : Cell) : Bool :=
  hasFlipsAux b color dr dc 16 (r + dr) (c + dc) false

/-- The run-collecting while-loop shared by `getFlipsInDirection` in
`board.ts` and `getFlippedPositions` in `search.ts`: returns the maximal run
of opponent discs starting at `(nr, nc)` in direction `(dr, dc)`, together
with the square on which the loop guard failed. -/
def collectRun (b : Board) (opp : Cell) (dr dc : Int) :
    Nat → Int → Int → List (Int × Int) × (Int × Int)
  | 0, nr, nc => ([], (nr, nc))
  | fuel + 1, nr, nc =>
    if inB nr nc && (cellAt b nr nc == opp) then
      let rest := collectRun b opp dr dc fuel (nr + dr) (nc + dc)
      ((nr, nc) :: rest.1, rest.2)
    else ([], (nr, nc))

/-- Positions of the pieces that would be flipped in direction `(dr, dc)`
(`getFlipsInDirection` in `board.ts`): the collected opponent run if the walk
ended on a disc of `color` inside the board, otherwise the empty list. -/
def getFlipsInDirection (b : Board) (r c dr dc : Int) (color : Cell) :
    List (Int × Int) :=
  let walk := collectRun b (-color) dr dc 16 (r + dr) (c + dc)
  if inB walk.2.1 walk.2.2 && (cellAt b walk.2.1 walk.2.2 == color) then walk.1
  else []

/-- Generates all legal moves for the given color (`generateLegalMoves` in
`board.ts`): every empty square from which some direction has flips, in the
row-major order of the source's nested loops. -/
def generateLegalMoves (b : Board) (color : Cell) : List (Int × Int) :=
  if color = 0 then []
  else
    rowMajorPairs.filter fun p =>
      cellAt b p.1 p.2 == 0 &&
        DIRECTIONS.any fun d => hasFlipsInDirection b p.1 p.2 d.1 d.2 color

/-- Result of `applyMove`: the new board and the number of flipped discs. -/
structure ApplyResult where
  board : Board
  flips : Nat
  deriving Repr, DecidableEq

/-- Applies a move and returns the new board with flipped pieces
(`applyMove` in `board.ts`).  A pass returns an unmodified copy with 0 flips.
Otherwise the moving color is placed on the target square, and for each of
the 8 directions the flips computed on the OLD board are applied; the flip
count is the total across directions. -/
def applyMove (b : Board) (m : Option (Int × Int)) (color : Cell) : ApplyResult :=
  match m with
  | none => ⟨b, 0⟩
  | some (r, c) =>
    let b1 := setCellI b r c color
    let dirFlips := DIRECTIONS.map fun d => getFlipsInDirection b r c d.1 d.2 color
    let totalFlips := (dirFlips.map List.length).sum
    let b2 := dirFlips.foldl
      (fun bb run => run.foldl (fun bb2 q => setCellI bb2 q.1 q.2 color) bb) b1
    ⟨b2, totalFlips⟩

/-- Exact rational number `num / den` with a positive denominator, standing
for the JS float arithmetic of the evaluator (all quantities there are tiny
integer fractions, exactly representable). Kept unnormalized so that all
operations are plain integer arithmetic. -/
structure Frac where
  num : Int
  den : Int
  deriving Repr, DecidableEq

/-- Embed an integer quantity (the integer-valued sub-scores and weights). -/
def Frac.ofInt (n : Int) : Frac := ⟨n, 1⟩

/-- Exact addition of two fractions. -/
def Frac.add (x y : Frac) : Frac := ⟨x.num * y.den + y.num * x.den, x.den * y.den⟩

/-- Exact multiplication of two fractions. -/
def Frac.mul (x y : Frac) : Frac := ⟨x.num * y.num, x.den * y.den⟩

/-- The rational value of a fraction. -/
def Frac.toRat (x : Frac) : ℚ := (x.num : ℚ) / (x.den : ℚ)

/-- JS `Math.round` on an exact fraction with positive denominator:
`Math.round(x) = floor(x + 1/2)` (ties round toward positive infinity), and
`floor(n/d + 1/2) = fdiv (2n + d) (2d)`. -/
def jsRound (x : Frac) : Int := Int.fdiv (2 * x.num + x.den) (2 * x.den)

/-- The evaluation weights of `evaluation.ts` (`EVAL_WEIGHTS`); all weight
values are integral floats. -/
structure EvalWeights where
  PIECE_SQUARE : Int
  MOBILITY : Int
  FRONTIER : Int
  STABILITY : Int
  DISC_DIFF : Int

/-- The configured constant weights. -/
def EVAL_WEIGHTS : EvalWeights :=
  { PIECE_SQUARE := 1, MOBILITY := 78, FRONTIER := -50, STABILITY := 100, DISC_DIFF := 1 }

/-- The exact piece-square table `SQUARE_WEIGHTS` of `evaluation.ts`. -/
def SQUARE_WEIGHTS : List (List Int) :=
  [[100, -20, 10, 5, 5, 10, -20, 100],
   [-20, -50, -2, -2, -2, -2, -50, -20],
   [10, -2, -1, -1, -1, -1, -2, 10],
   [5, -2, -1, -1, -1, -1, -2, 5],
   [5, -2, -1, -1, -1, -1, -2, 5],
   [10, -2, -1, -1, -1, -1, -2, 10],
   [-20, -50, -2, -2, -2, -2, -50, -20],
   [100, -20, 10, 5, 5, 10, -20, 100]]

/-- Piece-square table score (`calculatePieceSquareScore`): weights of the
evaluated color's squares minus weights of the opponent's squares. -/
def calculatePieceSquareScore (b : Board) (color : Cell) : Int :=
  let scores := rowMajorPairs.foldl
    (fun acc p =>
      let piece := cellAt b p.1 p.2
      let weight := (SQUARE_WEIGHTS.getD p.1.toNat []).getD p.2.toNat 0
      if piece == color then (acc.1 + weight, acc.2)
      else if piece == -color then (acc.1, acc.2 + weight)
      else acc)
    ((0 : Int), (0 : Int))
  scores.1 - scores.2

/-- Normalized mobility score (`calculateMobilityScore`):
`100 * (myMoves - oppMoves) / (myMoves + oppMoves + 1)`. -/
def calculateMobilityScore (b : Board) (color : Cell) : Frac :=
  let myMoves : Int := (generateLegalMoves b color).length
  let oppMoves : Int := (generateLegalMoves b (-color)).length
  ⟨100 * (myMoves - oppMoves), myMoves + oppMoves + 1⟩

/-- Frontier-disc counts of the scan in `calculateFrontierScore`: a disc is a
frontier disc when one of its 8 neighbours is an in-board empty square; the
result is (evaluated color's count, opponent's count). -/
def frontierCounts (b : Board) (color : Cell) : Nat × Nat :=
  rowMajorPairs.foldl
    (fun acc p =>
      let piece := cellAt b p.1 p.2
      if piece == 0 then acc
      else
        let isFrontier := DIRECTIONS.any fun d =>
          inB (p.1 + d.1) (p.2 + d.2) && (cellAt b (p.1 + d.1) (p.2 + d.2) == 0)
        if isFrontier then
          if piece == color then (acc.1 + 1, acc.2)
          else if piece == -color then (acc.1, acc.2 + 1)
          else acc
        else acc)
    (0, 0)

/-- Normalized frontier score (`calculateFrontierScore`):
`-50 * (myFrontier - oppFrontier) / (myFrontier + oppFrontier + 1)`. -/
def calculateFrontierScore (b : Board) (color : Cell) : Frac :=
  let counts := frontierCounts b color
  ⟨-50 * ((counts.1 : Int) - counts.2), (counts.1 : Int) + counts.2 + 1⟩

/-- One direction of the stability check (`isDirectionStable`): walk from
`(r, c)` one step at a time; every in-board square on the way must hold a
stable disc of the same color; reaching the board edge yields true.  In
particular a direction that leaves the board immediately is vacuously
stable. -/
def dirStableAux (b : Board) (stable : List (List Bool)) (color : Cell)
    (dr dc : Int) : Nat → Int → Int → Bool
  | 0, _, _ => true
  | fuel + 1, nr, nc =>
    if inB nr nc then
      if cellAt b nr nc == color && (stable.getD nr.toNat []).getD nc.toNat false then
        dirStableAux b stable color dr dc fuel (nr + dr) (nc + dc)
      else false
    else true

/-- Checks whether the direction from `(r, c)` is fully stable
(`isDirectionStable` in `evaluation.ts`). -/
def isDirectionStable (b : Board) (stable : List (List Bool)) (r c dr dc : Int)
    (color : Cell) : Bool :=
  dirStableAux b stable color dr dc 16 (r + dr) (c + dc)

/-- Checks if the disc at `(r, c)` should be marked stable (`isDiscStable`):
stable when at least one of the 8 directions is fully stable. -/
def isDiscStable (b : Board) (stable : List (List Bool)) (r c : Int) : Bool :=
  let color := cellAt b r c
  if color == 0 then false
  else DIRECTIONS.any fun d => isDirectionStable b stable r c d.1 d.2 color

/-- Mark position `(r, c)` stable in the grid. -/
def markStable (stable : List (List Bool)) (r c : Int) : List (List Bool) :=
  stable.set r.toNat ((stable.getD r.toNat []).set c.toNat true)

/-- One full scan of the `while (changed)` loop body in
`calculateStableDiscs`: visit the squares in row-major order, marking
newly-stable discs in place (later squares of the same scan see earlier
marks, as with the mutated JS array), and report whether anything changed. -/
def stabilityPass (b : Board) (g : List (List Bool)) : List (List Bool) × Bool :=
  rowMajorPairs.foldl
    (fun acc p =>
      if cellAt b p.1 p.2 == 0 || (acc.1.getD p.1.toNat []).getD p.2.toNat false then acc
      else if isDiscStable b acc.1 p.1 p.2 then (markStable acc.1 p.1 p.2, true)
      else acc)
    (g, false)

/-- The `while (changed)` fixed-point loop.  Each pass that reports a change
marks at least one of the 64 squares, so the loop reaches its fixed point in
at most 64 changed passes; fuel 65 therefore never runs out. -/
def stabilityLoop (b : Board) : Nat → List (List Bool) → List (List Bool)
  | 0, g => g
  | fuel + 1, g =>
    let pass := stabilityPass b g
    if pass.2 then stabilityLoop b fuel pass.1 else pass.1

/-- Stable-disc closure (`calculateStableDiscs`): seed with occupied corner
squares, then run the fixed-point loop. -/
def calculateStableDiscs (b : Board) : List (List Bool) :=
  let empty : List (List Bool) := List.replicate 8 (List.replicate 8 false)
  let seeded := [((0 : Int), (0 : Int)), (0, 7), (7, 0), (7, 7)].foldl
    (fun g p => if cellAt b p.1 p.2 != 0 then markStable g p.1 p.2 else g) empty
  stabilityLoop b 65 seeded

/-- Read the stability grid at `(r, c)`. -/
def stableAt (g : List (List Bool)) (r c : Int) : Bool :=
  (g.getD r.toNat []).getD c.toNat false

/-- Stability score (`calculateStabilityScore`):
`100 * (myStableCount - oppStableCount)` over the closure's grid. -/
def calculateStabilityScore (b : Board) (color : Cell) : Int :=
  let stable := calculateStableDiscs b
  let counts := rowMajorPairs.foldl
    (fun acc p =>
      if stableAt stable p.1 p.2 then
        if cellAt b p.1 p.2 == color then (acc.1 + 1, acc.2)
        else if cellAt b p.1 p.2 == -color then (acc.1, acc.2 + 1)
        else acc
      else acc)
    ((0 : Int), (0 : Int))
  100 * (counts.1 - counts.2)

/-- Disc-difference score (`calculateDiscDifferenceScore`):
`myCount - oppCount`. -/
def calculateDiscDifferenceScore (b : Board) (color : Cell) : Int :=
  let counts := rowMajorPairs.foldl
    (fun acc p =>
      if cellAt b p.1 p.2 == color then (acc.1 + 1, acc.2)
      else if cellAt b p.1 p.2 == -color then (acc.1, acc.2 + 1)
      else acc)
    ((0 : Int), (0 : Int))
  counts.1 - counts.2

/-- Main evaluation function (`evaluatePosition` in `evaluation.ts`): the
weighted sum of the five sub-scores, rounded with `Math.round`; the empty
color evaluates to 0. -/
def evaluatePosition (b : Board) (color : Cell) : Int :=
  if color == 0 then 0
  else
    let pieceSquareScore := calculatePieceSquareScore b color
    let mobilityScore := calculateMobilityScore b color
    let frontierScore := calculateFrontierScore b color
    let stabilityScore := calculateStabilityScore b color
    let discDiffScore := calculateDiscDifferenceScore b color
    let evaluation :=
      ((Frac.ofInt EVAL_WEIGHTS.PIECE_SQUARE).mul (Frac.ofInt pieceSquareScore)).add
        (((Frac.ofInt EVAL_WEIGHTS.MOBILITY).mul mobilityScore).add
          (((Frac.ofInt EVAL_WEIGHTS.FRONTIER).mul frontierScore).add
            (((Frac.ofInt EVAL_WEIGHTS.STABILITY).mul (Frac.ofInt stabilityScore)).add
              ((Frac.ofInt EVAL_WEIGHTS.DISC_DIFF).mul (Frac.ofInt discDiffScore)))))
    jsRound evaluation

/-- Character of one cell in the plain-text format (`serializeBoard`):
`.` for 0, `B` for 1, anything else serializes as `W`. -/
def cellChar (v : Cell) : Char :=
  if v == 0 then '.' else if v == 1 then 'B' else 'W'

/-- JS `Array.prototype.join('\n')`: concatenate with a newline between
consecutive elements. -/
def joinNl : List (List Char) → List Char
  | [] => []
  | [line] => line
  | line :: next :: rest => line ++ '\n' :: joinNl (next :: rest)

/-- Serializes a board to the 8-line text format (`serializeBoard` in
`board.ts`): per-row character strings joined with a newline. -/
def serializeBoard (b : Board) : List Char :=
  joinNl (b.map fun row => row.map cellChar)

/-- JS whitespace test for `String.prototype.trim`; only characters relevant
to this format are listed (the serializer can only emit `.`, `B`, `W`, and
inner newlines, none of the further Unicode whitespace code points). -/
def jsIsWs (ch : Char) : Bool :=
  ch == ' ' || ch == '\t' || ch == '\n' || ch == '\r' || ch == '\x0b' || ch == '\x0c'

/-- JS `String.prototype.trim`: drop whitespace from both ends. -/
def jsTrim (s : List Char) : List Char :=
  ((s.dropWhile jsIsWs).reverse.dropWhile jsIsWs).reverse

/-- JS `String.prototype.split('\n')`. -/
def splitNl : List Char → List (List Char)
  | [] => [[]]
  | ch :: rest =>
    if ch = '\n' then [] :: splitNl rest
    else
      match splitNl rest with
      | [] => [[ch]]
      | line :: lines => (ch :: line) :: lines

/-- Parse one character of a serialized row (the `char` branch of
`deserializeBoard`); an unknown character is a thrown format error. -/
def charCell (ch : Char) : Except (List Char) Cell :=
  if ch = '.' then .ok 0
  else if ch = 'B' then .ok 1
  else if ch = 'W' then .ok (-1)
  else .error ['I', 'n', 'v', 'a', 'l', 'i', 'd', ' ', 'c', 'h', 'a', 'r', 'a', 'c', 't', 'e', 'r']

/-- Parse the characters of one row, stopping at the first bad character
(the inner `for (const char of line)` loop of `deserializeBoard`). -/
def parseRow : List Char → Except (List Char) (List Cell)
  | [] => .ok []
  | ch :: rest =>
    match charCell ch with
    | .error e => .error e
    | .ok v =>
      match parseRow rest with
      | .error e => .error e
      | .ok vs => .ok (v :: vs)

/-- Parse the split lines (the outer `for (const line of lines)` loop of
`deserializeBoard`), checking each row length. -/
def parseRows : List (List Char) → Except (List Char) Board
  | [] => .ok []
  | line :: rest =>
    if line.length ≠ 8 then
      .error ['b', 'a', 'd', ' ', 'r', 'o', 'w', ' ', 'l', 'e', 'n', 'g', 't', 'h']
    else
      match parseRow line with
      | .error e => .error e
      | .ok row =>
        match parseRows rest with
        | .error e => .error e
        | .ok rows => .ok (row :: rows)

/-- Deserializes a board from string format (`deserializeBoard` in
`board.ts`): trim, split on newlines, check for exactly 8 rows, parse each
row of exactly 8 characters; any violation is a thrown format error. -/
def deserializeBoard (s : List Char) : Except (List Char) Board :=
  let lines := splitNl (jsTrim s)
  if lines.length ≠ 8 then
    .error ['b', 'a', 'd', ' ', 'r', 'o', 'w', ' ', 'c', 'o', 'u', 'n', 't']
  else parseRows lines

/-- The concrete side-to-move constant `ZOBRIST_SIDE_TO_MOVE` of
`zobrist.ts`. -/
def ZOBRIST_SIDE_TO_MOVE : Nat := 0x1a2b3c4d5e6f7a8b

/-- Calculates the hash of a board position (`hashBoard` in `zobrist.ts`),
parameterized by the random piece table `Z` (`ZOBRIST_PIECES[pos][colorIndex]`,
generated once at module load): XOR of the constants of all occupied squares,
XORed with the side constant exactly when Black is to move. -/
def hashBoard (Z : Nat → Nat → Nat) (b : Board) (sideToMove : Cell) : Nat :=
  let h := rowMajorPairs.foldl
    (fun h p =>
      let piece := cellAt b p.1 p.2
      if piece != 0 then
        h ^^^ Z (p.1 * 8 + p.2).toNat (if piece == 1 then 0 else 1)
      else h)
    0
  if sideToMove == 1 then h ^^^ ZOBRIST_SIDE_TO_MOVE else h

/-- Updates the hash incrementally after a move (`updateHash` in
`zobrist.ts`; the unused `_board` parameter is omitted): XOR the side
constant out, XOR the placed piece in, retoggle every flipped square from the
opponent constant to the mover constant, and XOR the side constant back in
exactly when the NEW side to move is Black. -/
def updateHash (Z : Nat → Nat → Nat) (oldHash : Nat) (mv : Int × Int)
    (color : Cell) (flippedPositions : List (Int × Int)) : Nat :=
  let h := oldHash ^^^ ZOBRIST_SIDE_TO_MOVE
  let pos := (mv.1 * 8 + mv.2).toNat
  let colorIndex := if color == 1 then 0 else 1
  let h := h ^^^ Z pos colorIndex
  let h := flippedPositions.foldl
    (fun h f =>
      let flipPos := (f.1 * 8 + f.2).toNat
      let oldColorIndex := if color == 1 then 1 else 0
      (h ^^^ Z flipPos oldColorIndex) ^^^ Z flipPos colorIndex)
    h
  if -color == 1 then h ^^^ ZOBRIST_SIDE_TO_MOVE else h

/-- Search constant `INFINITY` of `search.ts`. -/
def INFINITY : Int := 999999

/-- Transposition-table size cap `MAX_TT_SIZE` of `search.ts`. -/
def MAX_TT_SIZE : Nat := 1000000

/-- Bound-kind tag of a transposition entry (`TTEntry.flag`). -/
inductive TTFlag where
  | EXACT
  | LOWER
  | UPPER
  deriving Repr, DecidableEq

/-- Transposition table entry (`TTEntry` in `types.ts`). -/
structure TTEntry where
  key : Nat
  depth : Nat
  value : Int
  flag : TTFlag
  bestMove : Option (Int × Int)
  deriving Repr, DecidableEq

/-- The transposition table: the `Map` from hash-key strings to entries,
modelled as an association list on the hash value (BigInt `toString` is
injective, so the string key and the value key identify each other). -/
abbrev TT := List (Nat × TTEntry)

/-- `transpositionTable.get(key)`. -/
def ttGet (T : TT) (k : Nat) : Option TTEntry :=
  match T.find? (fun e => e.1 == k) with
  | none => none
  | some e => some e.2

/-- `transpositionTable.set(key, entry)`: replace an existing binding in
place, otherwise append. -/
def ttSet (T : TT) (k : Nat) (e : TTEntry) : TT :=
  match T with
  | [] => [(k, e)]
  | b :: rest => if b.1 == k then (k, e) :: rest else b :: ttSet rest k e

/-- Helper of `search.ts` that recomputes the flipped positions of a move for
hash updates (`getFlippedPositions`): the per-direction opponent runs that
end on a mover disc, concatenated in direction order. -/
def getFlippedPositions (b : Board) (m : Option (Int × Int)) (color : Cell) :
    List (Int × Int) :=
  match m with
  | none => []
  | some (r, c) =>
    DIRECTIONS.foldl
      (fun acc d => acc ++ getFlipsInDirection b r c d.1 d.2 color) []

/-- The move-ordering comparator of `orderMoves` in `search.ts`: corners
first, then higher flip count, then lower resulting opponent mobility.
(The `!a || !b` null guard of the source cannot fire: the move list never
contains the pass move.) -/
def cmpMoves (b : Board) (color : Cell) (a mv : Int × Int) : Int :=
  let corners : List (Int × Int) := [(0, 0), (0, 7), (7, 0), (7, 7)]
  let aIsCorner := corners.contains a
  let bIsCorner := corners.contains mv
  if aIsCorner && !bIsCorner then -1
  else if !aIsCorner && bIsCorner then 1
  else
    let aFlips : Int := (applyMove b (some a) color).flips
    let bFlips : Int := (applyMove b (some mv) color).flips
    if aFlips ≠ bFlips then bFlips - aFlips
    else
      let afterA := (applyMove b (some a) color).board
      let afterB := (applyMove b (some mv) color).board
      let aOppMobility : Int := (generateLegalMoves afterA (-color)).length
      let bOppMobility : Int := (generateLegalMoves afterB (-color)).length
      aOppMobility - bOppMobility

/-- Insert `x` into a sorted list, after every element that compares `< 0`
or `= 0` against it (keeping earlier-listed equal elements first). -/
def insertByCmp (cmp : (Int × Int) → (Int × Int) → Int) (x : Int × Int) :
    List (Int × Int) → List (Int × Int)
  | [] => [x]
  | y :: ys => if cmp y x < 0 then y :: insertByCmp cmp x ys else x :: y :: ys

/-- Stable sort by a comparator.  `Array.prototype.sort` is stable (ES2019)
and, for a consistent comparator such as `cmpMoves`, every stable sort
produces the same unique output order. -/
def sortByCmp (cmp : (Int × Int) → (Int × Int) → Int) (l : List (Int × Int)) :
    List (Int × Int) :=
  l.foldr (insertByCmp cmp) []

/-- Orders moves for better alpha-beta pruning (`orderMoves` in
`search.ts`). -/
def orderMoves (b : Board) (moves : List (Int × Int)) (color : Cell) :
    List (Int × Int) :=
  sortByCmp (cmpMoves b color) moves

/-- Result record of the recursive `minimax` of `search.ts`; the optional
`timeout` field defaults to false (absent/undefined in the source means
falsy). -/
structure MMResult where
  score : Int
  bestMove : Option (Int × Int)
  pv : List (List Char)
  nodes : Nat
  timeout : Bool
  deriving Repr, DecidableEq

/-- The running state of the move loop inside `minimax`: the mutable local
variables `alpha`, `beta`, `bestScore`, `bestMove`, `bestPV`, `nodes`, plus
the (mutated-in-place) transposition table. -/
structure LoopSt where
  alpha : Int
  beta : Int
  bestScore : Int
  bestMove : Option (Int × Int)
  bestPV : List (List Char)
  nodes : Nat
  tt : TT

/-- The deadline check of `minimax`
(`deadline && nodes % 1024 === 0 && Date.now() > deadline`), with the
current time passed in for `Date.now()`. -/
def deadlineExceeded (deadline : Option Int) (nodes : Nat) (now : Int) : Bool :=
  match deadline with
  | none => false
  | some d => nodes % 1024 == 0 && d < now

/-- The transposition probe at the top of `minimax`: with a stored depth of
at least the remaining depth, an `EXACT` entry is returned directly, a
`LOWER` entry only when its value is at least beta, an `UPPER` entry only
when its value is at most alpha; otherwise the probe falls through. -/
def ttProbe (T : TT) (h : Nat) (depth : Nat) (alpha beta : Int)
    (curPV : List (List Char)) : Option MMResult :=
  match ttGet T h with
  | none => none
  | some e =>
    if depth ≤ e.depth then
      match e.flag with
      | .EXACT =>
        some { score := e.value, bestMove := e.bestMove, pv := curPV, nodes := 1, timeout := false }
      | .LOWER =>
        if beta ≤ e.value then
          some { score := e.value, bestMove := e.bestMove, pv := curPV, nodes := 1, timeout := false }
        else none
      | .UPPER =>
        if e.value ≤ alpha then
          some { score := e.value, bestMove := e.bestMove, pv := curPV, nodes := 1, timeout := false }
        else none
    else none

/-- The `for (const move of orderedMoves)` loop of `minimax`, with the
recursive call abstracted as `f` (instantiated with the one-ply-shallower
search).  Returns the final state and whether the loop exited through the
child-timeout early return (true) or normally, including by the pruning
break (false). -/
def moveLoop (Z : Nat → Nat → Nat)
    (f : Board → Int → Int → Bool → List (List Char) → Nat → TT → MMResult × TT)
    (b : Board) (currentColor : Cell) (isMaximizing : Bool)
    (h : Nat) (curPV : List (List Char)) :
    List (Int × Int) → LoopSt → LoopSt × Bool
  | [], st => (st, false)
  | mv :: rest, st =>
    let newBoard := (applyMove b (some mv) currentColor).board
    let newPV := curPV ++ [moveToAlgebraic (some mv)]
    let flippedPositions := getFlippedPositions b (some mv) currentColor
    let newHash := updateHash Z h mv currentColor flippedPositions
    let step := f newBoard st.alpha st.beta (!isMaximizing) newPV newHash st.tt
    let res := step.1
    let nodes1 := st.nodes + res.nodes
    if res.timeout then
      ({ st with nodes := nodes1, tt := step.2 }, true)
    else
      let st1 : LoopSt :=
        if isMaximizing then
          let stA :=
            if st.bestScore < res.score then
              { st with bestScore := res.score, bestMove := some mv, bestPV := res.pv }
            else st
          { stA with alpha := max stA.alpha res.score }
        else
          let stA :=
            if res.score < st.bestScore then
              { st with bestScore := res.score, bestMove := some mv, bestPV := res.pv }
            else st
          { stA with beta := min stA.beta res.score }
      let st2 := { st1 with nodes := nodes1, tt := step.2 }
      if st2.beta ≤ st2.alpha then (st2, false)
      else moveLoop Z f b currentColor isMaximizing h curPV rest st2

/-- The bound tag stored after the loop: `UPPER` when the final score never
exceeded the original alpha, `LOWER` when it reached the final beta, `EXACT`
otherwise. -/
def storeFlag (bestScore originalAlpha beta : Int) : TTFlag :=
  if bestScore ≤ originalAlpha then .UPPER
  else if beta ≤ bestScore then .LOWER
  else .EXACT

/-- Minimax with alpha-beta pruning (`minimax` in `search.ts`).  Layout of
the source: `nodes` starts at 1; the deadline check (which, with `nodes`
always 1 at this point, can never fire) may return a timeout; the
transposition probe may short-circuit; depth 0 returns the static evaluation
(negated on minimizing plies); a ply without legal moves either evaluates a
finished game or recurses as a forced pass; otherwise the ordered move loop
runs and the result is stored in the table (while under the size cap).
`Date.now()` is passed in as `now`; the progress callback, which does not
influence the result, is omitted. -/
def minimax (Z : Nat → Nat → Nat) (color : Cell) (deadline : Option Int) (now : Int) :
    Nat → Board → Int → Int → Bool → List (List Char) → Nat → TT → MMResult × TT
  | depth, b, alpha, beta, isMaximizing, curPV, boardHash, T =>
    let nodes : Nat := 1
    if deadlineExceeded deadline nodes now then
      ({ score := -INFINITY, bestMove := none, pv := curPV, nodes := nodes, timeout := true }, T)
    else
      match ttProbe T boardHash depth alpha beta curPV with
      | some res => (res, T)
      | none =>
        match depth with
        | 0 =>
          let score := evaluatePosition b color
          ({ score := if isMaximizing then score else -score, bestMove := none,
             pv := curPV, nodes := nodes, timeout := false }, T)
        | d + 1 =>
          let currentColor := if isMaximizing then color else -color
          let moves := generateLegalMoves b currentColor
          if moves.isEmpty then
            if (generateLegalMoves b (-currentColor)).isEmpty then
              let score := evaluatePosition b color
              ({ score := if isMaximizing then score else -score, bestMove := none,
                 pv := curPV ++ [passTok], nodes := nodes, timeout := false }, T)
            else
              let step := minimax Z color deadline now d b alpha beta (!isMaximizing)
                (curPV ++ [passTok]) boardHash T
              ({ score := step.1.score, bestMove := none, pv := step.1.pv,
                 nodes := nodes + step.1.nodes, timeout := false }, step.2)
          else
            let orderedMoves := orderMoves b moves currentColor
            let st0 : LoopSt :=
              { alpha := alpha, beta := beta,
                bestScore := if isMaximizing then -INFINITY else INFINITY,
                bestMove := none, bestPV := curPV, nodes := nodes, tt := T }
            let run := moveLoop Z
              (fun b2 a2 be2 mx2 pv2 h2 T2 => minimax Z color deadline now d b2 a2 be2 mx2 pv2 h2 T2)
              b currentColor isMaximizing boardHash curPV orderedMoves st0
            let st := run.1
            if run.2 then
              ({ score := st.bestScore, bestMove := st.bestMove, pv := st.bestPV,
                 nodes := st.nodes, timeout := true }, st.tt)
            else
              let T2 :=
                if st.tt.length < MAX_TT_SIZE then
                  ttSet st.tt boardHash
                    { key := boardHash, depth := d + 1, value := st.bestScore,
                      flag := storeFlag st.bestScore alpha st.beta, bestMove := st.bestMove }
                else st.tt
              ({ score := st.bestScore, bestMove := st.bestMove, pv := st.bestPV,
                 nodes := st.nodes, timeout := false }, T2)

/-- Modelled from the spec: the hypothetical comparison search of the claim
that a probe must "never alter the outcome a full search would have
produced" — the identical recursive search run against an empty table with
no probe, i.e. `minimax` with the transposition probe and store removed and
everything else unchanged.  (The inert table argument threaded through
`moveLoop` is unused.) -/
def minimaxNoProbe (Z : Nat → Nat → Nat) (color : Cell) (deadline : Option Int) (now : Int) :
    Nat → Board → Int → Int → Bool → List (List Char) → Nat → TT → MMResult × TT
  | depth, b, alpha, beta, isMaximizing, curPV, boardHash, T =>
    let nodes : Nat := 1
    if deadlineExceeded deadline nodes now then
      ({ score := -INFINITY, bestMove := none, pv := curPV, nodes := nodes, timeout := true }, T)
    else
      match depth with
      | 0 =>
        let score := evaluatePosition b color
        ({ score := if isMaximizing then score else -score, bestMove := none,
           pv := curPV, nodes := nodes, timeout := false }, T)
      | d + 1 =>
        let currentColor := if isMaximizing then color else -color
        let moves := generateLegalMoves b currentColor
        if moves.isEmpty then
          if (generateLegalMoves b (-currentColor)).isEmpty then
            let score := evaluatePosition b color
            ({ score := if isMaximizing then score else -score, bestMove := none,
               pv := curPV ++ [passTok], nodes := nodes, timeout := false }, T)
          else
            let step := minimaxNoProbe Z color deadline now d b alpha beta (!isMaximizing)
              (curPV ++ [passTok]) boardHash T
            ({ score := step.1.score, bestMove := none, pv := step.1.pv,
               nodes := nodes + step.1.nodes, timeout := false }, step.2)
        else
          let orderedMoves := orderMoves b moves currentColor
          let st0 : LoopSt :=
            { alpha := alpha, beta := beta,
              bestScore := if isMaximizing then -INFINITY else INFINITY,
              bestMove := none, bestPV := curPV, nodes := nodes, tt := T }
          let run := moveLoop Z
            (fun b2 a2 be2 mx2 pv2 h2 T2 => minimaxNoProbe Z color deadline now d b2 a2 be2 mx2 pv2 h2 T2)
            b currentColor isMaximizing boardHash curPV orderedMoves st0
          let st := run.1
          if run.2 then
            ({ score := st.bestScore, bestMove := st.bestMove, pv := st.bestPV,
               nodes := st.nodes, timeout := true }, st.tt)
          else
            ({ score := st.bestScore, bestMove := st.bestMove, pv := st.bestPV,
               nodes := st.nodes, timeout := false }, st.tt)

/-- Search options (`SearchOptions` in `types.ts`). -/
structure SearchOpts where
  depth : Nat
  timeLimitMs : Int

/-- Engine search result (`EngineResult` in `types.ts`; `timeMs` — always 0
under the constant-clock model — is omitted). -/
structure EngineResult where
  bestMove : Option (Int × Int)
  bestMoveAlgebraic : List Char
  flips : Nat
  score : Int
  pv : List (List Char)
  nodes : Nat
  depthSearched : Nat
  deriving Repr, DecidableEq

/-- Accumulator of the iterative-deepening loop of `engineSearch`: the
mutable locals `nodes`, `bestMove`, `bestScore`, `pv`, `depthSearched`, plus
the shared transposition table. -/
structure IDState where
  nodes : Nat
  bestMove : Option (Int × Int)
  bestScore : Int
  pv : List (List Char)
  depthSearched : Nat
  tt : TT

/-- The iterative-deepening `for` loop of `engineSearch` over the remaining
depths.  The clock is modelled as constant (`Date.now() ≡ startTime ≡ 0`,
the in-budget scenario): the pre-pass elapsed-time check compares 0 against
the positive time limit, and a pass never reports a timeout (`minimax`'s
deadline check is dead), so under this model every requested depth
completes, as a real run does whenever the budget is not exhausted. -/
def idLoop (Z : Nat → Nat → Nat) (b : Board) (color : Cell) (timeLimitMs : Int) :
    List Nat → IDState → IDState
  | [], st => st
  | currentDepth :: rest, st =>
    if timeLimitMs ≤ (0 : Int) - 0 then st
    else
      let deadline : Int := 0 + timeLimitMs
      let run := minimax Z color (some deadline) 0 currentDepth b (-INFINITY) INFINITY true []
        (hashBoard Z b color) st.tt
      if run.1.timeout then st
      else
        idLoop Z b color timeLimitMs rest
          { nodes := st.nodes + run.1.nodes, bestMove := run.1.bestMove,
            bestScore := run.1.score, pv := run.1.pv, depthSearched := currentDepth,
            tt := run.2 }

/-- Main engine search function (`engineSearch` in `search.ts`): answer a
position without legal moves immediately with a pass and the static
evaluation; otherwise run iterative deepening from depth 1 to the requested
depth, keep the last completed pass's result, and recompute the best move's
flip count by applying it to the root board.  The shared transposition table
is threaded explicitly (the source's module-level `Map`, empty at process
start). -/
def engineSearchModel (Z : Nat → Nat → Nat) (b : Board) (color : Cell)
    (opts : SearchOpts) (T : TT) : EngineResult × TT :=
  let legalMoves := generateLegalMoves b color
  if legalMoves.isEmpty then
    ({ bestMove := none, bestMoveAlgebraic := passTok, flips := 0,
       score := evaluatePosition b color, pv := [passTok], nodes := 1,
       depthSearched := 0 }, T)
  else
    let st0 : IDState :=
      { nodes := 0, bestMove := none, bestScore := -INFINITY, pv := [],
        depthSearched := 0, tt := T }
    let st := idLoop Z b color opts.timeLimitMs ((List.range opts.depth).map (· + 1)) st0
    let flips :=
      match st.bestMove with
      | some mv => (applyMove b (some mv) color).flips
      | none => 0
    ({ bestMove := st.bestMove, bestMoveAlgebraic := moveToAlgebraic st.bestMove,
       flips := flips, score := st.bestScore, pv := st.pv, nodes := st.nodes,
       depthSearched := st.depthSearched }, st.tt)

/-- A concrete instance of the random Zobrist piece table, used for closed
evaluations: injective disjoint high bits (all above the bits of the side
constant), so distinct piece placements get distinct hashes, as a random
64-bit table does outside a negligible collision set. -/
def zobristConcrete (pos colorIndex : Nat) : Nat := 2 ^ (64 + 2 * pos + colorIndex)

/-- The frontier summand of the weighted sum inside `evaluatePosition`:
the frontier weight times the normalized frontier score. -/
def frontierContribution (b : Board) (color : Cell) : Frac :=
  (Frac.ofInt EVAL_WEIGHTS.FRONTIER).mul (calculateFrontierScore b color)

/-- A board with a single black disc at row 3, column 3: one black frontier
disc, no white ones. -/
def frontierCounterBoard : Board :=
  [[0, 0, 0, 0, 0, 0, 0, 0],
   [0, 0, 0, 0, 0, 0, 0, 0],
   [0, 0, 0, 0, 0, 0, 0, 0],
   [0, 0, 0, 1, 0, 0, 0, 0],
   [0, 0, 0, 0, 0, 0, 0, 0],
   [0, 0, 0, 0, 0, 0, 0, 0],
   [0, 0, 0, 0, 0, 0, 0, 0],
   [0, 0, 0, 0, 0, 0, 0, 0]]

/-- A board with a black disc at row 0, column 3 and a white disc at row 0,
column 4: White to move can play (0,2) and flip the black disc, although the
stability closure marks it stable (its off-board direction is vacuously a
stable chain). -/
def stabilityCounterBoard : Board :=
  [[0, 0, 0, 1, -1, 0, 0, 0],
   [0, 0, 0, 0, 0, 0, 0, 0],
   [0, 0, 0, 0, 0, 0, 0, 0],
   [0, 0, 0, 0, 0, 0, 0, 0],
   [0, 0, 0, 0, 0, 0, 0, 0],
   [0, 0, 0, 0, 0, 0, 0, 0],
   [0, 0, 0, 0, 0, 0, 0, 0],
   [0, 0, 0, 0, 0, 0, 0, 0]]

/-- All entries of the table have stored depth at most `n` (used to show
that an iterative-deepening pass's root probe cannot hit). -/
def ttDepthLE (T : TT) (n : Nat) : Prop := ∀ p ∈ T, (p : Nat × TTEntry).2.depth ≤ n

/-- A small position for exercising the transposition probe: Black to move
has the single legal move (0,2); after it White has the single reply (4,2).
The depth-2 value of this position differs from its depth-1 value. -/
def probeCounterBoard : Board :=
  [[1, -1, 0, 0, 0, 0, 0, 0],
   [0, 0, 1, 0, 0, 0, 0, 0],
   [0, 0, -1, 0, 0, 0, 0, 0],
   [0, 0, 1, 0, 0, 0, 0, 0],
   [0, 0, 0, 0, 0, 0, 0, 0],
   [0, 0, 0, 0, 0, 0, 0, 0],
   [0, 0, 0, 0, 0, 0, 0, 0],
   [0, 0, 0, 0, 0, 0, 0, 0]]

/-! ### Lemmas about the deadline check and the timeout flag (claim C2) -/

/-- The deadline comparison of `minimax` is checked with the local node
counter equal to 1, and `1 % 1024 ≠ 0`, so it always reports false. -/
theorem deadlineExceeded_at_one (deadline : Option Int) (now : Int) :
    deadlineExceeded deadline 1 now = false := by
  cases deadline <;> simp [deadlineExceeded]

/-- Every result produced by the transposition probe has a cleared timeout
flag. -/
theorem ttProbe_timeout_false (T : TT) (h : Nat) (depth : Nat) (alpha beta : Int)
    (curPV : List (List Char)) (res : MMResult)
    (hp : ttProbe T h depth alpha beta curPV = some res) : res.timeout = false := by
  unfold ttProbe at hp
  split at hp
  · simp at hp
  · split at hp
    · split at hp
      · injection hp with h1; subst h1; rfl
      · split at hp
        · injection hp with h1; subst h1; rfl
        · simp at hp
      · split at hp
        · injection hp with h1; subst h1; rfl
        · simp at hp
    · simp at hp

/-- If the abstracted recursive call never reports a timeout, the move loop
never exits through its timeout early-return. -/
theorem moveLoop_no_timeout (Z : Nat → Nat → Nat)
    (f : Board → Int → Int → Bool → List (List Char) → Nat → TT → MMResult × TT)
    (hf : ∀ b2 a2 be2 mx2 pv2 h2 T2, (f b2 a2 be2 mx2 pv2 h2 T2).1.timeout = false)
    (b : Board) (currentColor : Cell) (isMaximizing : Bool)
    (h : Nat) (curPV : List (List Char)) :
    ∀ (moves : List (Int × Int)) (st : LoopSt),
      (moveLoop Z f b currentColor isMaximizing h curPV moves st).2 = false := by
  intro moves
  induction moves with
  | nil => intro st; rfl
  | cons mv rest ih =>
    intro st
    rw [moveLoop]
    simp only [hf]
    split
    · next hcontra => simp at hcontra
    · split <;> split <;> split <;> first | rfl | exact ih _

/-- The timeout flag of every minimax result is false (shared helper; see
the C2 theorem for the statement's meaning). -/
theorem minimax_timeout_flag_false (Z : Nat → Nat → Nat) (color : Cell)
    (deadline : Option Int) (now : Int) :
    ∀ (depth : Nat) (b : Board) (alpha beta : Int) (isMaximizing : Bool)
      (curPV : List (List Char)) (boardHash : Nat) (T : TT),
      ((minimax Z color deadline now depth b alpha beta isMaximizing curPV
          boardHash T).1).timeout = false := by
  intro depth
  induction depth with
  | zero =>
    intro b alpha beta mx pv h T
    rw [minimax]
    simp only [deadlineExceeded_at_one, Bool.false_eq_true, if_false]
    cases hp : ttProbe T h 0 alpha beta pv with
    | some res => simp only [hp]; exact ttProbe_timeout_false T h 0 alpha beta pv res hp
    | none => simp only [hp]
  | succ d ih =>
    intro b alpha beta mx pv h T
    rw [minimax]
    simp only [deadlineExceeded_at_one, Bool.false_eq_true, if_false]
    cases hp : ttProbe T h (d + 1) alpha beta pv with
    | some res => simp only [hp]; exact ttProbe_timeout_false T h (d + 1) alpha beta pv res hp
    | none =>
      simp only [hp]
      repeat' split
      all_goals try rfl
      all_goals
        next hto =>
          rw [moveLoop_no_timeout Z _
            (fun b2 a2 be2 mx2 pv2 h2 T2 => ih b2 a2 be2 mx2 pv2 h2 T2)] at hto
          exact absurd hto (by simp)

/-- C2: the claim is that the recursive minimax pass periodically compares
the current time against the deadline at a fixed node-count interval and,
once the deadline is exceeded, unwinds with a timeout flag through every
caller.  In the code the check reads `nodes % 1024 === 0` at a point where
the local node counter is always exactly 1, so the check never fires and a
minimax call never reports a timeout, no matter how far past the deadline
the clock is: the timeout flag of every minimax result is false, for every
position, depth, window, hash, table and clock value. -/
theorem minimax_never_reports_timeout (Z : Nat → Nat → Nat) (color : Cell)
    (deadline : Option Int) (now : Int) (depth : Nat) (b : Board)
    (alpha beta : Int) (isMaximizing : Bool) (curPV : List (List Char))
    (boardHash : Nat) (T : TT) :
    ((minimax Z color deadline now depth b alpha beta isMaximizing curPV
        boardHash T).1).timeout = false :=
  minimax_timeout_flag_false Z color deadline now depth b alpha beta isMaximizing
    curPV boardHash T

/-! ### Lemmas about move application (claims C6, C10) -/

/-- Every square enumerated by the row-major scan lies on the board. -/
theorem rowMajorPairs_inB : ∀ p ∈ rowMajorPairs, inB p.1 p.2 = true := by decide

/-- The row-major scan is strictly increasing in (row, column) order. -/
theorem rowMajorPairs_pairwise :
    rowMajorPairs.Pairwise (fun p q => p.1 < q.1 ∨ (p.1 = q.1 ∧ p.2 < q.2)) := by decide

/-- If the `hasFlipsInDirection` walk succeeds, then the collecting walk of
`getFlipsInDirection` from the same start ends on an in-board anchor of the
moving color, and, unless an opponent disc was already seen, collects a
non-empty run. -/
theorem hasFlipsAux_anchor (b : Board) (color : Cell) (dr dc : Int) :
    ∀ (fuel : Nat) (nr nc : Int) (hasOpp : Bool),
      hasFlipsAux b color dr dc fuel nr nc hasOpp = true →
      (inB (collectRun b (-color) dr dc fuel nr nc).2.1
          (collectRun b (-color) dr dc fuel nr nc).2.2 &&
        (cellAt b (collectRun b (-color) dr dc fuel nr nc).2.1
            (collectRun b (-color) dr dc fuel nr nc).2.2 == color)) = true ∧
      (hasOpp = true ∨ (collectRun b (-color) dr dc fuel nr nc).1 ≠ []) := by
  intro fuel
  induction fuel with
  | zero =>
    intro nr nc hasOpp hw
    rw [hasFlipsAux] at hw
    rw [collectRun]
    simp only [Bool.and_eq_true] at hw ⊢
    exact ⟨⟨hw.1.2, hw.2⟩, Or.inl hw.1.1⟩
  | succ fuel ih =>
    intro nr nc hasOpp hw
    rw [hasFlipsAux] at hw
    rw [collectRun]
    split at hw
    · next hguard =>
      rw [if_pos hguard]
      have hrec := ih (nr + dr) (nc + dc) true hw
      exact ⟨hrec.1, Or.inr (by simp)⟩
    · next hguard =>
      rw [if_neg hguard]
      simp only [Bool.and_eq_true] at hw ⊢
      exact ⟨⟨hw.1.2, hw.2⟩, Or.inl hw.1.1⟩

/-- A direction that has flips yields a non-empty flip list. -/
theorem getFlips_ne_nil_of_hasFlips (b : Board) (r c dr dc : Int) (color : Cell)
    (hw : hasFlipsInDirection b r c dr dc color = true) :
    getFlipsInDirection b r c dr dc color ≠ [] := by
  have h := hasFlipsAux_anchor b color dr dc 16 (r + dr) (c + dc) false hw
  rw [getFlipsInDirection]
  rw [if_pos h.1]
  rcases h.2 with h2 | h2
  · exact absurd h2 (by simp)
  · exact h2

/-- Writing past the end of a list is a no-op. -/
theorem set_of_length_le {α : Type} :
    ∀ (l : List α) (n : Nat) (a : α), l.length ≤ n → l.set n a = l := by
  intro l
  induction l with
  | nil => intro n a _; rfl
  | cons x xs ih =>
    intro n a h
    cases n with
    | zero => simp at h
    | succ m => simp only [List.set]; rw [ih m a (by simpa using h)]

/-- Reading an in-range `set` position with `getD`. -/
theorem getD_set_self {α : Type} :
    ∀ (l : List α) (n : Nat) (a d : α), n < l.length → (l.set n a).getD n d = a := by
  intro l
  induction l with
  | nil => intro n a d h; simp at h
  | cons x xs ih =>
    intro n a d h
    cases n with
    | zero => rfl
    | succ m => simpa using ih m a d (by simpa using h)

/-- Reading any other position after a `set` is unchanged. -/
theorem getD_set_ne {α : Type} :
    ∀ (l : List α) (m n : Nat) (a d : α), m ≠ n → (l.set m a).getD n d = l.getD n d := by
  intro l
  induction l with
  | nil => intro m n a d _; rfl
  | cons x xs ih =>
    intro m n a d h
    cases m with
    | zero =>
      cases n with
      | zero => exact absurd rfl h
      | succ k => rfl
    | succ m' =>
      cases n with
      | zero => rfl
      | succ k => simpa using ih m' k a d (by omega)

/-- Reading back the just-written position after `setCellI` (the write must
be in board range and the board must have its 8x8 shape). -/
theorem cellAt_setCellI_self (b : Board) (r c : Int) (v : Cell)
    (hb : WFShape b) (hin : inB r c = true) :
    cellAt (setCellI b r c v) r c = v := by
  have hbounds : 0 ≤ r ∧ r < 8 ∧ 0 ≤ c ∧ c < 8 := by
    simp only [inB, Bool.and_eq_true, decide_eq_true_eq] at hin
    exact ⟨hin.1.1.1, hin.1.1.2, hin.1.2, hin.2⟩
  have hrlen : r.toNat < b.length := by rw [hb.1]; omega
  have hrow : b.getD r.toNat [] ∈ b := by
    rw [List.getD_eq_getElem _ _ hrlen]
    exact List.getElem_mem hrlen
  have hclen : c.toNat < (b.getD r.toNat []).length := by
    rw [hb.2 _ hrow]; omega
  rw [setCellI, if_pos hin, cellAt, if_pos hin]
  rw [getD_set_self _ _ _ _ hrlen, getD_set_self _ _ _ _ hclen]

/-- A write of value `v` never destroys an existing read of value `v`. -/
theorem cellAt_setCellI_preserve (b : Board) (r c x y : Int) (v : Cell)
    (hv : cellAt b r c = v) :
    cellAt (setCellI b x y v) r c = v := by
  rw [setCellI]
  split
  · by_cases hin : inB r c = true
    · rw [cellAt, if_pos hin] at hv
      rw [cellAt, if_pos hin]
      by_cases hrx : r.toNat = x.toNat
      · rw [hrx] at hv ⊢
        by_cases hxl : x.toNat < b.length
        · rw [getD_set_self _ _ _ _ hxl]
          by_cases hcy : c.toNat = y.toNat
          · rw [hcy] at hv ⊢
            by_cases hyl : y.toNat < (b.getD x.toNat []).length
            · rw [getD_set_self _ _ _ _ hyl]
            · rw [set_of_length_le _ _ _ (le_of_not_lt hyl)]
              exact hv
          · rw [getD_set_ne _ _ _ _ _ (fun hh => hcy hh.symm)]
            exact hv
        · rw [set_of_length_le _ _ _ (le_of_not_lt hxl)]
          exact hv
      · rw [getD_set_ne _ _ _ _ _ (fun hh => hrx hh.symm)]
        exact hv
    · rw [cellAt, if_neg hin] at hv
      rw [cellAt, if_neg hin]
      exact hv
  · exact hv

/-- Folding same-value writes over a list of positions preserves an existing
read of that value. -/
theorem foldl_setCellI_preserve (v : Cell) (r c : Int) :
    ∀ (L : List (Int × Int)) (b0 : Board), cellAt b0 r c = v →
      cellAt (L.foldl (fun bb q => setCellI bb q.1 q.2 v) b0) r c = v := by
  intro L
  induction L with
  | nil => intro b0 h; exact h
  | cons q rest ih =>
    intro b0 h
    exact ih _ (cellAt_setCellI_preserve b0 r c q.1 q.2 v h)

/-- The nested flip-application fold of `applyMove` preserves an existing
read of the moving color. -/
theorem foldl_runs_setCellI_preserve (v : Cell) (r c : Int) :
    ∀ (runs : List (List (Int × Int))) (b0 : Board), cellAt b0 r c = v →
      cellAt (runs.foldl
        (fun bb run => run.foldl (fun bb2 q => setCellI bb2 q.1 q.2 v) bb) b0) r c = v := by
  intro runs
  induction runs with
  | nil => intro b0 h; exact h
  | cons run rest ih =>
    intro b0 h
    exact ih _ (foldl_setCellI_preserve v r c run b0 h)

/-- Every member of a list of naturals is at most the list's sum. -/
theorem nat_mem_le_sum : ∀ (l : List Nat) (x : Nat), x ∈ l → x ≤ l.sum := by
  intro l
  induction l with
  | nil => intro x h; simp at h
  | cons y ys ih =>
    intro x h
    rcases List.mem_cons.mp h with rfl | h2
    · simp
    · calc x ≤ ys.sum := ih x h2
        _ ≤ (y :: ys).sum := by simp

/-- Unpacking membership in the legal move list: the square is one of the
row-major squares, it is empty, and some direction has flips. -/
theorem mem_generateLegalMoves (b : Board) (color : Cell) (m : Int × Int)
    (hm : m ∈ generateLegalMoves b color) :
    m ∈ rowMajorPairs ∧ cellAt b m.1 m.2 = 0 ∧
      ∃ d ∈ DIRECTIONS, hasFlipsInDirection b m.1 m.2 d.1 d.2 color = true := by
  rw [generateLegalMoves] at hm
  split at hm
  · simp at hm
  · have h := List.mem_filter.mp hm
    refine ⟨h.1, ?_, ?_⟩
    · have := (Bool.and_eq_true _ _ |>.mp h.2).1
      simpa using this
    · have := (Bool.and_eq_true _ _ |>.mp h.2).2
      simpa using List.any_eq_true.mp this

/-- C6: for every well-formed board, every non-empty side, and every move in
the generated legal move list, `applyMove` reports at least one flipped disc
and the destination square of the new board holds the moving side. -/
theorem applyMove_legal_flips_and_places (b : Board) (color : Cell) (m : Int × Int)
    (hb : WFShape b) (hcolor : color = 1 ∨ color = -1)
    (hm : m ∈ generateLegalMoves b color) :
    1 ≤ (applyMove b (some m) color).flips ∧
      cellAt (applyMove b (some m) color).board m.1 m.2 = color := by
  obtain ⟨r, c⟩ := m
  obtain ⟨hmem, _hempty, d, hd, hflips⟩ := mem_generateLegalMoves b color (r, c) hm
  constructor
  · have hne := getFlips_ne_nil_of_hasFlips b r c d.1 d.2 color hflips
    have hlen : 1 ≤ (getFlipsInDirection b r c d.1 d.2 color).length :=
      Nat.one_le_iff_ne_zero.mpr (fun hz => hne (List.length_eq_zero.mp hz))
    have hmemlen : (getFlipsInDirection b r c d.1 d.2 color).length ∈
        ((DIRECTIONS.map fun dd => getFlipsInDirection b r c dd.1 dd.2 color).map
          List.length) := by
      rw [List.map_map]
      exact List.mem_map_of_mem _ hd
    have hsum := nat_mem_le_sum _ _ hmemlen
    show 1 ≤ ((DIRECTIONS.map fun dd => getFlipsInDirection b r c dd.1 dd.2 color).map
      List.length).sum
    omega
  · have hin : inB r c = true := rowMajorPairs_inB (r, c) hmem
    show cellAt (((DIRECTIONS.map fun dd => getFlipsInDirection b r c dd.1 dd.2 color).foldl
      (fun bb run => run.foldl (fun bb2 q => setCellI bb2 q.1 q.2 color) bb)
      (setCellI b r c color))) r c = color
    exact foldl_runs_setCellI_preserve color r c _ _
      (cellAt_setCellI_self b r c color hb hin)

/-- Witness for C6 at a concrete input: the move d3 is legal for Black on
the starting board, flips one disc and lands a black disc on d3. -/
theorem applyMove_legal_flips_and_places_witness :
    WFShape createStartingBoard ∧ ((1 : Cell) = 1 ∨ (1 : Cell) = -1) ∧
      ((2, 4) : Int × Int) ∈ generateLegalMoves createStartingBoard 1 ∧
      (1 ≤ (applyMove createStartingBoard (some (2, 4)) 1).flips ∧
        cellAt (applyMove createStartingBoard (some (2, 4)) 1).board 2 4 = 1) :=
  ⟨by decide, Or.inl rfl, by decide,
    applyMove_legal_flips_and_places createStartingBoard 1 (2, 4) (by decide)
      (Or.inl rfl) (by decide)⟩

/-- C10: for every board and side, the legal move list (whose entries are
coordinate pairs, never the pass value) contains only squares with row and
column in [0,7] that are empty on the input board, is strictly increasing in
row-major order (by row, then column), and therefore lists no square twice.
The enumeration is a pure function of the board and side. -/
theorem generateLegalMoves_invariants (b : Board) (color : Cell) :
    (∀ m ∈ generateLegalMoves b color,
        (0 ≤ m.1 ∧ m.1 < 8 ∧ 0 ≤ m.2 ∧ m.2 < 8) ∧ cellAt b m.1 m.2 = 0) ∧
      (generateLegalMoves b color).Pairwise
        (fun p q => p.1 < q.1 ∨ (p.1 = q.1 ∧ p.2 < q.2)) ∧
      (generateLegalMoves b color).Nodup := by
  have hpw : (generateLegalMoves b color).Pairwise
      (fun p q => p.1 < q.1 ∨ (p.1 = q.1 ∧ p.2 < q.2)) := by
    rw [generateLegalMoves]
    split
    · exact List.Pairwise.nil
    · exact rowMajorPairs_pairwise.filter _
  refine ⟨?_, hpw, ?_⟩
  · intro m hm
    obtain ⟨hmem, hempty, _⟩ := mem_generateLegalMoves b color m hm
    have hin := rowMajorPairs_inB m hmem
    simp only [inB, Bool.and_eq_true, decide_eq_true_eq] at hin
    exact ⟨⟨hin.1.1.1, hin.1.1.2, hin.1.2, hin.2⟩, hempty⟩
  · exact hpw.imp (fun {p q} h => by
      rintro rfl
      rcases h with h | h
      · omega
      · omega)

/-! ### Lemmas about serialization (claim C9) -/

/-- A serialized cell is never a newline. -/
theorem cellChar_ne_nl (v : Cell) : cellChar v ≠ '\n' := by
  rw [cellChar]
  split
  · decide
  · split
    · decide
    · decide

/-- A serialized cell is never JS whitespace. -/
theorem jsIsWs_cellChar (v : Cell) : jsIsWs (cellChar v) = false := by
  rw [cellChar]
  split
  · decide
  · split
    · decide
    · decide

/-- `split('\n')` of a newline-free string is that single line. -/
theorem splitNl_no_nl : ∀ (l : List Char), (∀ ch ∈ l, ch ≠ '\n') →
    splitNl l = [l] := by
  intro l
  induction l with
  | nil => intro _; rfl
  | cons ch rest ih =>
    intro h
    rw [splitNl, if_neg (h ch (by simp))]
    rw [ih fun c hc => h c (by simp [hc])]

/-- `split('\n')` after a newline-free prefix and an explicit newline. -/
theorem splitNl_append (rest : List Char) :
    ∀ (l : List Char), (∀ ch ∈ l, ch ≠ '\n') →
      splitNl (l ++ '\n' :: rest) = l :: splitNl rest := by
  intro l
  induction l with
  | nil => simp [splitNl]
  | cons ch l' ih =>
    intro h
    rw [List.cons_append, splitNl, if_neg (h ch (by simp))]
    rw [ih fun c hc => h c (by simp [hc])]

/-- `split('\n')` is a left inverse of `join('\n')` on non-empty lists of
newline-free lines. -/
theorem splitNl_joinNl : ∀ (lines : List (List Char)), lines ≠ [] →
    (∀ line ∈ lines, ∀ ch ∈ line, ch ≠ '\n') →
    splitNl (joinNl lines) = lines := by
  intro lines
  induction lines with
  | nil => intro h _; exact absurd rfl h
  | cons line rest ih =>
    intro _ h
    cases rest with
    | nil => exact splitNl_no_nl line (h line (by simp))
    | cons l2 rest' =>
      simp only [joinNl]
      rw [splitNl_append _ line (h line (by simp))]
      rw [ih (by simp) fun ln hln => h ln (by simp [hln])]

/-- A join of lines whose first line starts with `a` starts with `a`. -/
theorem joinNl_cons_head (a : Char) (l0 : List Char) :
    ∀ (ls : List (List Char)), ∃ t, joinNl ((a :: l0) :: ls) = a :: t := by
  intro ls
  cases ls with
  | nil => exact ⟨l0, rfl⟩
  | cons l1 ls' => exact ⟨l0 ++ '\n' :: joinNl (l1 :: ls'), rfl⟩

/-- A join of lines whose last line ends in `z` ends in `z`. -/
theorem joinNl_concat_last (z : Char) :
    ∀ (ls : List (List Char)) (t : List Char),
      ∃ A, joinNl (ls ++ [t ++ [z]]) = A ++ [z] := by
  intro ls
  induction ls with
  | nil => intro t; exact ⟨t, rfl⟩
  | cons l0 ls' ih =>
    intro t
    cases ls' with
    | nil => exact ⟨l0 ++ '\n' :: t, by simp [joinNl]⟩
    | cons l1 ls'' =>
      obtain ⟨A, hA⟩ := ih t
      refine ⟨l0 ++ '\n' :: A, ?_⟩
      have h2 : joinNl ((l0 :: l1 :: ls'') ++ [t ++ [z]]) =
          l0 ++ '\n' :: joinNl ((l1 :: ls'') ++ [t ++ [z]]) := rfl
      rw [h2, hA]
      simp

/-- `trim` leaves a string alone when it starts and ends with
non-whitespace. -/
theorem jsTrim_eq_self (s : List Char) (a z : Char) (t A : List Char)
    (hhead : s = a :: t) (hlast : s = A ++ [z])
    (ha : jsIsWs a = false) (hz : jsIsWs z = false) : jsTrim s = s := by
  rw [jsTrim]
  rw [hhead, List.dropWhile_cons, ha]
  simp only [Bool.false_eq_true, if_false]
  rw [← hhead, hlast]
  rw [List.reverse_append, List.reverse_cons]
  simp only [List.reverse_nil, List.nil_append, List.singleton_append]
  rw [List.dropWhile_cons, hz]
  simp only [Bool.false_eq_true, if_false]
  rw [List.reverse_cons, List.reverse_reverse]

/-- Parsing the serialization of a row of valid cells gives the row back. -/
theorem parseRow_map_cellChar : ∀ (row : List Cell),
    (∀ v ∈ row, v = 0 ∨ v = 1 ∨ v = -1) →
    parseRow (row.map cellChar) = .ok row := by
  intro row
  induction row with
  | nil => intro _; rfl
  | cons v vs ih =>
    intro h
    have hcc : charCell (cellChar v) = .ok v := by
      rcases h v (by simp) with rfl | rfl | rfl <;> rfl
    rw [List.map_cons, parseRow, hcc, ih fun w hw => h w (by simp [hw])]

/-- Parsing the serialized lines of valid 8-cell rows gives the rows back. -/
theorem parseRows_map_cellChar : ∀ (rows : List (List Cell)),
    (∀ row ∈ rows, row.length = 8) →
    (∀ row ∈ rows, ∀ v ∈ row, v = 0 ∨ v = 1 ∨ v = -1) →
    parseRows (rows.map fun row => row.map cellChar) = .ok rows := by
  intro rows
  induction rows with
  | nil => intro _ _; rfl
  | cons row rest ih =>
    intro hlen hv
    rw [List.map_cons, parseRows]
    rw [if_neg (by simp [hlen row (by simp)])]
    rw [parseRow_map_cellChar row (hv row (by simp))]
    rw [ih (fun r hr => hlen r (by simp [hr])) (fun r hr => hv r (by simp [hr]))]

/-- C9: deserializing the serialization of any valid 8x8 board (all cells in
0, 1, -1) returns exactly that board: the text round trip is the identity on
valid boards. -/
theorem serialize_deserialize_roundtrip (b : Board)
    (hb : WFShape b) (hv : ValidCells b) :
    deserializeBoard (serializeBoard b) = .ok b := by
  obtain ⟨r0, brest, hb0⟩ : ∃ r0 brest, b = r0 :: brest := by
    cases b with
    | nil => exact absurd hb.1 (by simp)
    | cons r0 brest => exact ⟨r0, brest, rfl⟩
  obtain ⟨c0, r0rest, hr0⟩ : ∃ c0 r0rest, r0 = c0 :: r0rest := by
    cases r0 with
    | nil => exact absurd (hb.2 [] (by rw [hb0]; simp)) (by simp)
    | cons c0 r0rest => exact ⟨c0, r0rest, rfl⟩
  obtain ⟨binit, rlast, hbl⟩ : ∃ binit rlast, b = binit ++ [rlast] := by
    rcases b.eq_nil_or_concat with h | ⟨binit, rlast, h⟩
    · exact absurd (h ▸ hb.1) (by simp)
    · exact ⟨binit, rlast, by rw [h, List.concat_eq_append]⟩
  obtain ⟨rlinit, clast, hrl⟩ : ∃ rlinit clast, rlast = rlinit ++ [clast] := by
    rcases rlast.eq_nil_or_concat with h | ⟨rlinit, clast, hh⟩
    · exact absurd (h ▸ hb.2 rlast (by rw [hbl]; simp)) (by simp)
    · exact ⟨rlinit, clast, by rw [hh, List.concat_eq_append]⟩
  have hnl : ∀ line ∈ b.map (fun row => row.map cellChar), ∀ ch ∈ line, ch ≠ '\n' := by
    intro line hline ch hch
    obtain ⟨row, _, rfl⟩ := List.mem_map.mp hline
    obtain ⟨v, _, rfl⟩ := List.mem_map.mp hch
    exact cellChar_ne_nl v
  have htrim : jsTrim (serializeBoard b) = serializeBoard b := by
    obtain ⟨t, ht⟩ := joinNl_cons_head (cellChar c0) (r0rest.map cellChar)
      (brest.map fun row => row.map cellChar)
    obtain ⟨A, hA⟩ := joinNl_concat_last (cellChar clast)
      (binit.map fun row => row.map cellChar) (rlinit.map cellChar)
    refine jsTrim_eq_self _ (cellChar c0) (cellChar clast) t A ?_ ?_
      (jsIsWs_cellChar c0) (jsIsWs_cellChar clast)
    · rw [serializeBoard, hb0, hr0]
      simpa using ht
    · rw [serializeBoard, hbl, hrl]
      rw [List.map_append]
      simpa using hA
  rw [deserializeBoard, htrim, serializeBoard]
  rw [splitNl_joinNl _ (by simp [hb0]) hnl]
  rw [if_neg (by simp [hb.1])]
  exact parseRows_map_cellChar b hb.2 hv

/-- Witness for C9 at a concrete input: the starting board round-trips. -/
theorem serialize_deserialize_roundtrip_witness :
    WFShape createStartingBoard ∧ ValidCells createStartingBoard ∧
      deserializeBoard (serializeBoard createStartingBoard) = .ok createStartingBoard :=
  ⟨by decide, by decide,
    serialize_deserialize_roundtrip createStartingBoard (by decide) (by decide)⟩

/-! ### Algebraic conversion (claim C7) -/

/-- C7 counterexample: the malformed string aa (second character not a
digit) does NOT decode to the no-move value: `parseInt` yields `NaN`,
`NaN - 1` is `NaN`, every range comparison with `NaN` is false, and
`algebraicToMove` returns a coordinate object with a `NaN` row instead of
null. -/
theorem algebraicToMove_nan_row_counterexample :
    algebraicToMove ['a', 'a'] = some (none, 0) ∧ algebraicToMove ['a', 'a'] ≠ none := by
  constructor
  · decide
  · decide

/-- C7 amended: conversion is a two-way exact inverse on the pass move and
on every coordinate move with row and column in [0,7], and a malformed
string of wrong length, or with an out-of-range letter, or with a digit out
of range (0 or 9) decodes to the no-move value; but a length-2 string whose
second character is not a digit instead decodes to a coordinate object
carrying a NaN row (see the counterexample). -/
theorem algebraic_conversion_roundtrip_amended :
    (∀ r c : Int, 0 ≤ r → r < 8 → 0 ≤ c → c < 8 →
        algebraicToMove (moveToAlgebraic (some (r, c))) = some (some r, c)) ∧
      algebraicToMove (moveToAlgebraic none) = none ∧
      (∀ s : List Char, s.length ≠ 2 → algebraicToMove s = none) ∧
      (∀ c0 c1 : Char,
          (c0.toNat < 97 ∨ 104 < c0.toNat ∨ c1 = '0' ∨
            (c1.isDigit = true ∧ 56 < c1.toNat)) →
          algebraicToMove [c0, c1] = none) := by
  refine ⟨?_, by decide, ?_, ?_⟩
  · intro r c hr0 hr8 hc0 hc8
    interval_cases r <;> interval_cases c <;> decide
  · intro s h
    by_cases hp : s = passTok
    · rw [algebraicToMove, if_pos hp]
    · rw [algebraicToMove, if_neg hp, if_pos h]
  · intro c0 c1 hc
    have hpass : ([c0, c1] : List Char) ≠ passTok := by
      intro h
      rw [passTok] at h
      simp at h
    rw [algebraicToMove, if_neg hpass, if_neg (by simp)]
    have hget0 : ([c0, c1] : List Char).getD 0 ' ' = c0 := rfl
    have hget1 : ([c0, c1] : List Char).getD 1 ' ' = c1 := rfl
    rw [hget0, hget1]
    rcases hc with h | h | h | h
    · rw [if_pos ?_]
      have : ((c0.toNat : Int) - 97 < 0) := by omega
      simp [this]
    · rw [if_pos ?_]
      have : (7 : Int) < (c0.toNat : Int) - 97 := by omega
      simp [this]
    · subst h
      rw [if_pos ?_]
      have : jsLtNum ((jsParseIntChar '0').map (· - 1)) 0 = true := by decide
      simp [this]
    · rw [if_pos ?_]
      have : jsGtNum ((jsParseIntChar c1).map (· - 1)) 7 = true := by
        rw [jsParseIntChar, if_pos h.1]
        show decide ((7 : Int) < (c1.toNat : Int) - 48 - 1) = true
        simp only [decide_eq_true_eq]
        omega
      simp [this]

/-- Witness for C7 amended at concrete inputs: d3 round-trips, a length-1
string decodes to null, and a8-with-digit-0 decodes to null. -/
theorem algebraic_conversion_roundtrip_amended_witness :
    ((0 : Int) ≤ 2 ∧ (2 : Int) < 8 ∧ (0 : Int) ≤ 3 ∧ (3 : Int) < 8 ∧
        algebraicToMove (moveToAlgebraic (some (2, 3))) = some (some 2, 3)) ∧
      (((['x'] : List Char).length ≠ 2) ∧ algebraicToMove ['x'] = none) ∧
      algebraicToMove ['a', '0'] = none :=
  ⟨⟨by decide, by decide, by decide, by decide,
      algebraic_conversion_roundtrip_amended.1 2 3 (by decide) (by decide) (by decide)
        (by decide)⟩,
    ⟨by decide, algebraic_conversion_roundtrip_amended.2.2.1 ['x'] (by decide)⟩,
    algebraic_conversion_roundtrip_amended.2.2.2 'a' '0'
      (Or.inr (Or.inr (Or.inl rfl)))⟩

/-! ### Frontier contribution (claim C8) -/

/-- C8 counterexample: on a board where the evaluated side has one frontier
disc and the opponent none, the frontier contribution is strictly positive
(2500 times the normalized difference), refuting that it is positive exactly
when the opponent has more frontier discs. -/
theorem frontier_contribution_sign_counterexample :
    0 < (frontierContribution frontierCounterBoard 1).toRat ∧
      ¬ ((frontierCounts frontierCounterBoard 1).1 <
          (frontierCounts frontierCounterBoard 1).2) := by
  constructor
  · have h : frontierContribution frontierCounterBoard 1 = ⟨2500, 2⟩ := by decide
    rw [h, Frac.toRat]
    norm_num
  · decide

/-- C8 amended: the frontier component of the evaluation is the frontier
weight (-50) applied on top of the already-negative normalized frontier
score -50 * (myFrontier - oppFrontier) / (myFrontier + oppFrontier + 1); the
two negative factors cancel, so the combined contribution equals
2500 * (myFrontier - oppFrontier) / (myFrontier + oppFrontier + 1) and is
positive exactly when the EVALUATED side (not the opponent) has more
frontier discs. -/
theorem frontier_contribution_positive_iff_more_own_frontier
    (b : Board) (color : Cell) :
    (frontierContribution b color).toRat =
      2500 * (((frontierCounts b color).1 : ℚ) - ((frontierCounts b color).2 : ℚ)) /
        (((frontierCounts b color).1 : ℚ) + ((frontierCounts b color).2 : ℚ) + 1) ∧
      (0 < (frontierContribution b color).toRat ↔
        (frontierCounts b color).2 < (frontierCounts b color).1) := by
  have hden : (0 : ℚ) <
      ((frontierCounts b color).1 : ℚ) + ((frontierCounts b color).2 : ℚ) + 1 := by
    positivity
  have heq : (frontierContribution b color).toRat =
      2500 * (((frontierCounts b color).1 : ℚ) - ((frontierCounts b color).2 : ℚ)) /
        (((frontierCounts b color).1 : ℚ) + ((frontierCounts b color).2 : ℚ) + 1) := by
    simp only [frontierContribution, calculateFrontierScore, Frac.mul, Frac.ofInt,
      Frac.toRat, EVAL_WEIGHTS]
    push_cast
    ring_nf
  refine ⟨heq, ?_⟩
  rw [heq]
  rw [lt_div_iff₀ hden, zero_mul, mul_pos_iff]
  constructor
  · rintro (⟨_, hpos⟩ | ⟨habs, _⟩)
    · have := sub_pos.mp hpos
      exact_mod_cast this
    · norm_num at habs
  · intro hlt
    exact Or.inl ⟨by norm_num, sub_pos.mpr (by exact_mod_cast hlt)⟩

/-! ### Stability soundness (claim C4) -/

/-- C4: the stability closure is NOT sound.  On `stabilityCounterBoard` the
closure marks the black disc at (0,3) stable (the upward direction leaves
the board immediately, so `isDirectionStable` is vacuously true), yet (0,2)
is a legal move for White that flips exactly that disc: a disc marked stable
is flipped by a single legal move of the opponent. -/
theorem calculateStableDiscs_marks_flippable_disc_stable :
    stableAt (calculateStableDiscs stabilityCounterBoard) 0 3 = true ∧
      cellAt stabilityCounterBoard 0 3 = 1 ∧
      ((0, 2) : Int × Int) ∈ generateLegalMoves stabilityCounterBoard (-1) ∧
      cellAt ((applyMove stabilityCounterBoard (some (0, 2)) (-1)).board) 0 3 = -1 := by
  refine ⟨by decide, by decide, by decide, by decide⟩

/-! ### Incremental hashing (claim C1) -/

/-- C1: the incremental hash update does NOT equal the from-scratch hash of
the resulting position when the mover is White: `updateHash` XORs the side
constant unconditionally (although a white-to-move hash does not contain it)
and then XORs it again for the new black mover, so the side constant cancels
instead of being added; the result differs from `hashBoard` of the resulting
board by exactly `ZOBRIST_SIDE_TO_MOVE`.  Exhibited on the starting board
with White's legal move (2,3) and its flip list as computed by the code. -/
theorem updateHash_white_move_diverges_from_hashBoard :
    ((2, 3) : Int × Int) ∈ generateLegalMoves createStartingBoard (-1) ∧
      getFlippedPositions createStartingBoard (some (2, 3)) (-1) = [(3, 3)] ∧
      updateHash zobristConcrete (hashBoard zobristConcrete createStartingBoard (-1))
          (2, 3) (-1) [(3, 3)] =
        hashBoard zobristConcrete
            ((applyMove createStartingBoard (some (2, 3)) (-1)).board) 1 ^^^
          ZOBRIST_SIDE_TO_MOVE ∧
      updateHash zobristConcrete (hashBoard zobristConcrete createStartingBoard (-1))
          (2, 3) (-1) [(3, 3)] ≠
        hashBoard zobristConcrete
          ((applyMove createStartingBoard (some (2, 3)) (-1)).board) 1 := by
  refine ⟨by decide, by decide, by decide, by decide⟩

/-! ### End-to-end scenario (claim C5) -/



/-! ### Transposition probe (claim C3) -/

set_option maxRecDepth 100000 in
set_option maxHeartbeats 16000000 in
/-- C3 counterexample: on `probeCounterBoard`, a depth-1 minimax call that
probes the table left behind by the code's own depth-2 search from the empty
table returns score 44305 (the stored depth-2 value, via an EXACT hit at the
root key), while the identical call against an empty table, and the
identical call with the probe and store removed, both return -37621: the
probe alters the outcome the full search would have produced. -/
theorem minimax_probe_alters_outcome_counterexample :
    (minimax zobristConcrete 1 none 0 1 probeCounterBoard (-INFINITY) INFINITY true []
        (hashBoard zobristConcrete probeCounterBoard 1)
        (minimax zobristConcrete 1 none 0 2 probeCounterBoard (-INFINITY) INFINITY true []
          (hashBoard zobristConcrete probeCounterBoard 1) []).2).1.score = 44305 ∧
      (minimax zobristConcrete 1 none 0 1 probeCounterBoard (-INFINITY) INFINITY true []
          (hashBoard zobristConcrete probeCounterBoard 1) []).1.score = -37621 ∧
      (minimaxNoProbe zobristConcrete 1 none 0 1 probeCounterBoard (-INFINITY) INFINITY
          true [] (hashBoard zobristConcrete probeCounterBoard 1) []).1.score = -37621 ∧
      ((44305 : Int) ≠ -37621) := by
  refine ⟨by decide, by decide, by decide, by decide⟩

/-- C3 amended: the probe short-circuit follows exactly the stored-depth and
bound guard the spec describes — with a stored depth at least the remaining
depth, an EXACT entry returns its stored score and move directly, a LOWER
entry does so only when its value is at least beta, an UPPER entry only when
its value is at most alpha — but what it returns is the STORED result, which
(per the counterexample) need not equal what the identical call would return
against an empty table with no probe. -/
theorem minimax_probe_guard (Z : Nat → Nat → Nat) (color : Cell)
    (deadline : Option Int) (now : Int) (depth : Nat) (b : Board)
    (alpha beta : Int) (isMaximizing : Bool) (curPV : List (List Char))
    (boardHash : Nat) (T : TT) (e : TTEntry)
    (hget : ttGet T boardHash = some e) (hdepth : depth ≤ e.depth)
    (hguard : e.flag = .EXACT ∨ (e.flag = .LOWER ∧ beta ≤ e.value) ∨
      (e.flag = .UPPER ∧ e.value ≤ alpha)) :
    minimax Z color deadline now depth b alpha beta isMaximizing curPV boardHash T =
      ({ score := e.value, bestMove := e.bestMove, pv := curPV, nodes := 1,
         timeout := false }, T) := by
  have hprobe : ttProbe T boardHash depth alpha beta curPV =
      some { score := e.value, bestMove := e.bestMove, pv := curPV, nodes := 1,
             timeout := false } := by
    rw [ttProbe, hget]
    dsimp only
    rw [if_pos hdepth]
    rcases hguard with hf | ⟨hf, hv⟩ | ⟨hf, hv⟩ <;> rw [hf] <;> dsimp only
    · rw [if_pos hv]
    · rw [if_pos hv]
  cases depth with
  | zero =>
    rw [minimax]
    simp only [deadlineExceeded_at_one, Bool.false_eq_true, if_false]
    rw [hprobe]
  | succ d =>
    rw [minimax]
    simp only [deadlineExceeded_at_one, Bool.false_eq_true, if_false]
    rw [hprobe]

/-- Witness for C3 amended at a concrete input: a table holding an EXACT
depth-3 entry under key 5 short-circuits a depth-2 call probing key 5. -/
theorem minimax_probe_guard_witness :
    ttGet [(5, ⟨5, 3, 42, .EXACT, some (1, 1)⟩)] 5 =
        some ⟨5, 3, 42, .EXACT, some (1, 1)⟩ ∧
      (2 : Nat) ≤ 3 ∧
      minimax zobristConcrete 1 none 0 2 createStartingBoard (-INFINITY) INFINITY true []
          5 [(5, ⟨5, 3, 42, .EXACT, some (1, 1)⟩)] =
        ({ score := 42, bestMove := some (1, 1), pv := [], nodes := 1, timeout := false },
          [(5, ⟨5, 3, 42, .EXACT, some (1, 1)⟩)]) :=
  ⟨rfl, by decide,
    minimax_probe_guard zobristConcrete 1 none 0 2 createStartingBoard (-INFINITY)
      INFINITY true [] 5 [(5, ⟨5, 3, 42, .EXACT, some (1, 1)⟩)]
      ⟨5, 3, 42, .EXACT, some (1, 1)⟩ rfl (by decide) (Or.inl rfl)⟩

/-! ### Provenance of the search's best move (claim C5) -/

/-- Membership through one insertion step of the stable sort. -/
theorem mem_insertByCmp (cmp : (Int × Int) → (Int × Int) → Int) (x y : Int × Int) :
    ∀ l, y ∈ insertByCmp cmp x l ↔ y = x ∨ y ∈ l := by
  intro l
  induction l with
  | nil => simp [insertByCmp]
  | cons z zs ih =>
    rw [insertByCmp]
    split
    · rw [List.mem_cons, ih, List.mem_cons]
      tauto
    · rw [List.mem_cons, List.mem_cons]

/-- The sorted move list has exactly the members of the input list. -/
theorem mem_sortByCmp (cmp : (Int × Int) → (Int × Int) → Int) (y : Int × Int) :
    ∀ l, y ∈ sortByCmp cmp l ↔ y ∈ l := by
  intro l
  induction l with
  | nil => simp [sortByCmp]
  | cons z zs ih =>
    rw [sortByCmp, List.foldr_cons, mem_insertByCmp, List.mem_cons]
    rw [sortByCmp] at ih
    rw [ih]

/-- The best move after the move loop is the incoming best move or one of
the looped moves. -/
theorem moveLoop_bestMove_mem (Z : Nat → Nat → Nat)
    (f : Board → Int → Int → Bool → List (List Char) → Nat → TT → MMResult × TT)
    (b : Board) (cc : Cell) (mx : Bool) (h : Nat) (pv : List (List Char)) :
    ∀ (moves : List (Int × Int)) (st : LoopSt),
      (moveLoop Z f b cc mx h pv moves st).1.bestMove = st.bestMove ∨
        ∃ mv ∈ moves, (moveLoop Z f b cc mx h pv moves st).1.bestMove = some mv := by
  intro moves
  induction moves with
  | nil => intro st; left; rfl
  | cons mv rest ih =>
    intro st
    rw [moveLoop]
    dsimp only
    repeat' split
    all_goals first
      | (left; rfl)
      | (right; exact ⟨mv, by simp, rfl⟩)
      | (rcases ih _ with hl | ⟨m, hm, hsome⟩
         · first
           | (left; exact hl)
           | (right; exact ⟨mv, by simp, hl⟩)
         · right; exact ⟨m, by simp [hm], hsome⟩)

/-- Entries after a `set` are old entries or the new binding. -/
theorem mem_ttSet : ∀ (T : TT) (k : Nat) (e : TTEntry) (p : Nat × TTEntry),
    p ∈ ttSet T k e → p ∈ T ∨ p = (k, e) := by
  intro T
  induction T with
  | nil =>
    intro k e p hp
    right
    simpa [ttSet] using hp
  | cons q rest ih =>
    intro k e p hp
    rw [ttSet] at hp
    split at hp
    · rcases List.mem_cons.mp hp with rfl | h2
      · right; rfl
      · left; exact List.mem_cons_of_mem _ h2
    · rcases List.mem_cons.mp hp with rfl | h2
      · left; exact List.mem_cons_self _ _
      · rcases ih k e p h2 with h3 | h3
        · left; exact List.mem_cons_of_mem _ h3
        · right; exact h3

/-- A `set` with an entry within the depth bound keeps the bound. -/
theorem ttDepthLE_ttSet (T : TT) (k : Nat) (e : TTEntry) (n : Nat)
    (hT : ttDepthLE T n) (he : e.depth ≤ n) : ttDepthLE (ttSet T k e) n := by
  intro p hp
  rcases mem_ttSet T k e p hp with h | rfl
  · exact hT p h
  · exact he

/-- The move loop keeps the table depth bound when the recursive call
does. -/
theorem moveLoop_tt_le (Z : Nat → Nat → Nat)
    (f : Board → Int → Int → Bool → List (List Char) → Nat → TT → MMResult × TT)
    (b : Board) (cc : Cell) (mx : Bool) (h : Nat) (pv : List (List Char)) (n : Nat)
    (hf : ∀ b2 a2 be2 mx2 pv2 h2 T2, ttDepthLE T2 n →
      ttDepthLE (f b2 a2 be2 mx2 pv2 h2 T2).2 n) :
    ∀ (moves : List (Int × Int)) (st : LoopSt), ttDepthLE st.tt n →
      ttDepthLE (moveLoop Z f b cc mx h pv moves st).1.tt n := by
  intro moves
  induction moves with
  | nil => intro st hst; exact hst
  | cons mv rest ih =>
    intro st hst
    rw [moveLoop]
    dsimp only
    repeat' split
    all_goals first
      | exact hf _ _ _ _ _ _ _ hst
      | (refine ih _ ?_; exact hf _ _ _ _ _ _ _ hst)

/-- Minimax at remaining depth within the bound keeps the table depth
bound: every entry it stores carries the depth of the node that stored it,
which never exceeds the call's depth. -/
theorem minimax_tt_le (Z : Nat → Nat → Nat) (color : Cell)
    (deadline : Option Int) (now : Int) :
    ∀ (depth : Nat) (b : Board) (alpha beta : Int) (mx : Bool)
      (pv : List (List Char)) (h : Nat) (T : TT) (n : Nat), depth ≤ n →
      ttDepthLE T n →
      ttDepthLE (minimax Z color deadline now depth b alpha beta mx pv h T).2 n := by
  intro depth
  induction depth with
  | zero =>
    intro b alpha beta mx pv h T n _ hT
    rw [minimax]
    simp only [deadlineExceeded_at_one, Bool.false_eq_true, if_false]
    cases hp : ttProbe T h 0 alpha beta pv <;> simp only [hp] <;> exact hT
  | succ d ih =>
    intro b alpha beta mx pv h T n hd hT
    rw [minimax]
    simp only [deadlineExceeded_at_one, Bool.false_eq_true, if_false]
    cases hp : ttProbe T h (d + 1) alpha beta pv with
    | some res => simp only [hp]; exact hT
    | none =>
      simp only [hp]
      repeat' split
      all_goals first
        | exact hT
        | (refine ih _ _ _ _ _ _ _ n (by omega) ?_; exact hT)
        | (refine ttDepthLE_ttSet _ _ _ n ?_ hd
           refine moveLoop_tt_le Z _ b _ mx h pv n
             (fun b2 a2 be2 mx2 pv2 h2 T2 hT2 => ih b2 a2 be2 mx2 pv2 h2 T2 n (by omega) hT2) _ _ ?_
           exact hT)
        | (refine moveLoop_tt_le Z _ b _ mx h pv n
             (fun b2 a2 be2 mx2 pv2 h2 T2 hT2 => ih b2 a2 be2 mx2 pv2 h2 T2 n (by omega) hT2) _ _ ?_
           exact hT)

/-- A probe at a depth strictly above every stored depth falls through. -/
theorem ttProbe_none_of_depth_lt (T : TT) (h : Nat) (depth : Nat)
    (alpha beta : Int) (pv : List (List Char)) (n : Nat)
    (hT : ttDepthLE T n) (hd : n < depth) :
    ttProbe T h depth alpha beta pv = none := by
  rw [ttProbe]
  cases hg : ttGet T h with
  | none => rfl
  | some e =>
    rw [ttGet] at hg
    rcases hfind : T.find? (fun q => q.1 == h) with _ | p <;> rw [hfind] at hg
    · simp at hg
    · have hpe : p.2 = e := by simpa using hg
      have hmem : p ∈ T := List.mem_of_find?_eq_some hfind
      have hdep : e.depth ≤ n := hpe ▸ hT p hmem
      dsimp only
      rw [if_neg (by omega)]

/-- When the probe falls through, the best move of a minimax call is the
null move or a member of the side-to-move's legal move list. -/
theorem minimax_bestMove_mem (Z : Nat → Nat → Nat) (color : Cell)
    (deadline : Option Int) (now : Int) (depth : Nat) (b : Board)
    (alpha beta : Int) (mx : Bool) (pv : List (List Char)) (h : Nat) (T : TT)
    (hp : ttProbe T h depth alpha beta pv = none) :
    (minimax Z color deadline now depth b alpha beta mx pv h T).1.bestMove = none ∨
      ∃ mv ∈ generateLegalMoves b (if mx = true then color else -color),
        (minimax Z color deadline now depth b alpha beta mx pv h T).1.bestMove = some mv := by
  cases depth with
  | zero =>
    rw [minimax]
    simp only [deadlineExceeded_at_one, Bool.false_eq_true, if_false, hp]
    first
      | trivial
      | (left; first | rfl | trivial)
  | succ d =>
    rw [minimax]
    simp only [deadlineExceeded_at_one, Bool.false_eq_true, if_false, hp]
    repeat' split
    all_goals first
      | trivial
      | (left; first | rfl | trivial)
      | (rcases moveLoop_bestMove_mem Z _ b _ mx h pv _ _ with hl | ⟨mv, hmv, hsome⟩
         · left; exact hl
         · right
           refine ⟨mv, ?_, hsome⟩
           rw [orderMoves] at hmv
           exact (mem_sortByCmp _ _ _).mp hmv)

/-- Weakening of the table depth bound. -/
theorem ttDepthLE_mono (T : TT) (k n : Nat) (hkn : k ≤ n) (hT : ttDepthLE T k) :
    ttDepthLE T n := fun p hp => le_trans (hT p hp) hkn

/-- Through the iterative-deepening loop, the reported best move stays the
null move or a legal root move: each pass's root probe cannot hit (every
stored depth is below the pass depth), so the pass's best move comes from
the root's move loop. -/
theorem idLoop_bestMove_mem (Z : Nat → Nat → Nat) (b : Board) (color : Cell)
    (tl : Int) :
    ∀ (ds : List Nat) (st : IDState) (k : Nat),
      (st.bestMove = none ∨ ∃ mv ∈ generateLegalMoves b color, st.bestMove = some mv) →
      ttDepthLE st.tt k →
      (∀ d ∈ ds, k < d) →
      ds.Pairwise (· < ·) →
      ((idLoop Z b color tl ds st).bestMove = none ∨
        ∃ mv ∈ generateLegalMoves b color, (idLoop Z b color tl ds st).bestMove = some mv) := by
  intro ds
  induction ds with
  | nil => intro st k hst _ _ _; exact hst
  | cons d ds' ih =>
    intro st k hst hT hk hpw
    rw [idLoop]
    dsimp only
    split
    · exact hst
    · have hp : ttProbe st.tt (hashBoard Z b color) d (-INFINITY) INFINITY [] = none :=
        ttProbe_none_of_depth_lt _ _ _ _ _ _ k hT (hk d (by simp))
      have hbm := minimax_bestMove_mem Z color (some (0 + tl)) 0 d b (-INFINITY) INFINITY
        true [] (hashBoard Z b color) st.tt hp
      have hto := minimax_timeout_flag_false Z color (some (0 + tl)) 0 d b (-INFINITY)
        INFINITY true [] (hashBoard Z b color) st.tt
      rw [hto]
      simp only [Bool.false_eq_true, if_false]
      have hT2 : ttDepthLE (minimax Z color (some (0 + tl)) 0 d b (-INFINITY) INFINITY
          true [] (hashBoard Z b color) st.tt).2 d :=
        minimax_tt_le Z color (some (0 + tl)) 0 d b (-INFINITY) INFINITY true []
          (hashBoard Z b color) st.tt d (le_refl d)
          (ttDepthLE_mono _ k d (le_of_lt (hk d (by simp))) hT)
      refine ih _ d ?_ hT2 ?_ (List.Pairwise.of_cons hpw)
      · exact hbm
      · intro d2 hd2
        exact List.rel_of_pairwise_cons hpw hd2

/-- The best-move label of a search on a position with legal moves is the
label of the iterative-deepening loop's final best move. -/
theorem engineSearchModel_bestMoveAlgebraic (Z : Nat → Nat → Nat) (b : Board)
    (color : Cell) (opts : SearchOpts) (T : TT)
    (hne : (generateLegalMoves b color).isEmpty = false) :
    (engineSearchModel Z b color opts T).1.bestMoveAlgebraic =
      moveToAlgebraic (idLoop Z b color opts.timeLimitMs
        ((List.range opts.depth).map (· + 1))
        { nodes := 0, bestMove := none, bestScore := -INFINITY, pv := [],
          depthSearched := 0, tt := T }).bestMove := by
  rw [engineSearchModel, hne]
  rfl

/-- C5: the end-to-end scenario fails.  `createStartingBoard` places the
colors mirrored with respect to the standard opening (and to the project's
own unit test, which expects d4 to be white), so Black's four legal openings
on this board convert to e3, f4, c5 and d6.  For EVERY Zobrist piece table,
the depth-2, 1000 ms engine search on this board returns a best-move label
drawn from pass plus those four labels, a set disjoint from the spec's
four labels c4, d3, e6, f5. -/
theorem engineSearch_depth2_best_move_not_spec_opening (Z : Nat → Nat → Nat) :
    (engineSearchModel Z createStartingBoard 1 ⟨2, 1000⟩ []).1.bestMoveAlgebraic ∈
        (passTok :: (generateLegalMoves createStartingBoard 1).map
          (fun m => moveToAlgebraic (some m))) ∧
      (passTok :: (generateLegalMoves createStartingBoard 1).map
          (fun m => moveToAlgebraic (some m))) =
        [['p', 'a', 's', 's'], ['e', '3'], ['f', '4'], ['c', '5'], ['d', '6']] ∧
      ∀ s ∈ (passTok :: (generateLegalMoves createStartingBoard 1).map
          (fun m => moveToAlgebraic (some m))),
        s ∉ [['c', '4'], ['d', '3'], ['e', '6'], ['f', '5']] := by
  refine ⟨?_, by decide, by decide⟩
  rw [engineSearchModel_bestMoveAlgebraic Z createStartingBoard 1 ⟨2, 1000⟩ []
    (by decide)]
  have hfinal := idLoop_bestMove_mem Z createStartingBoard 1 1000
    ((List.range 2).map (· + 1))
    { nodes := 0, bestMove := none, bestScore := -INFINITY, pv := [],
      depthSearched := 0, tt := [] } 0
    (Or.inl rfl) (fun p hp => by simp at hp) (by decide) (by decide)
  rcases hfinal with hnone | ⟨mv, hmv, hsome⟩
  · rw [hnone]
    exact List.mem_cons_self _ _
  · rw [hsome]
    exact List.mem_cons_of_mem _ (List.mem_map_of_mem _ hmv)

end Othello


